import Mathlib

/-!
Verification of the self-paced reading-time analysis pipeline
(`analyze_exaggeration.py`): item-identifier and region extraction,
the stimulus left-join, per-group reading-time reconstruction,
the quality filter, and the statistics-stage guards.
-/

namespace Sarcasm

/-- One row of the stimulus-design table (`stimuli.csv`).  Fields that the
raw CSV may leave empty (and that pandas therefore holds as possibly-NaN
after the left join) are modelled as `Option`. -/
structure Stimulus where
  item_id : String
  Exaggeration : Option Int
  format : Option String
  type : Option String
  critical_region : Option Nat
  deriving DecidableEq, Repr

/-- One keypress row of the raw event log after the rename step:
`participant`, `item_order`, `label`, `parameter`, `event_time`. -/
structure RtEvent where
  participant : String
  item_order : Int
  label : String
  parameter : String
  event_time : Int
  deriving DecidableEq, Repr

/-! ## Key extraction (lines 60 and 81 of `analyze_exaggeration.py`) -/

/-- Greedy match of the regular expression `[^_]+_[^_]+_[^_]+` at the very
start of the character list: a maximal nonempty run of non-underscore
characters, an underscore, a second such run, an underscore, a third such
run.  Because `[^_]` and the literal `_` are disjoint, the greedy
maximal-run reading coincides with the backtracking regex semantics.
`dropWhile` leaves either `[]` or a list headed by the separator, so
`drop 1` removes exactly the separator; when a separator is missing the
following token comes out empty and the match fails, as the regex does. -/
def matchPat (l : List Char) : Option (List Char) :=
  let a := l.takeWhile fun c => c ≠ '_'
  let l1 := (l.dropWhile fun c => c ≠ '_').drop 1
  let b := l1.takeWhile fun c => c ≠ '_'
  let l2 := (l1.dropWhile fun c => c ≠ '_').drop 1
  let c := l2.takeWhile fun c => c ≠ '_'
  if a = [] ∨ b = [] ∨ c = [] then none
  else some (a ++ '_' :: b ++ '_' :: c)

/-- Leftmost match of `[^_]+_[^_]+_[^_]+` anywhere in the list, as
`re.search` finds it: try each start position from the left. -/
def searchPat : List Char → Option (List Char)
  | [] => none
  | c :: rest =>
    match matchPat (c :: rest) with
    | some m => some m
    | none => searchPat rest

/-- Line 60: `rt_data['label'].str.extract(r'([^_]+_[^_]+_[^_]+)')` — the
first (leftmost) substring of the label matching the pattern, or null. -/
def extractItemId (label : String) : Option String :=
  (searchPat label.toList).map List.asString

/-- Split a character list at every underscore, as Python's
`label.split('_')` does: consecutive or leading underscores produce empty
tokens. -/
def splitTokens : List Char → List (List Char)
  | [] => [[]]
  | c :: rest =>
    if c = '_' then [] :: splitTokens rest
    else
      match splitTokens rest with
      | t :: ts => (c :: t) :: ts
      | [] => [[c]]

/-- Join tokens with single underscores. -/
def joinUnderscore : List (List Char) → List Char
  | [] => []
  | [t] => t
  | t :: ts => t ++ '_' :: joinUnderscore ts

/-- Modelled from the spec's words (§4.2): "the identifier is composed of
the first three underscore-delimited tokens, joined by underscores" —
split the label on underscores, keep the first three tokens, rejoin.
Kept separate from `extractItemId` so the two can be compared. -/
def specFirstThreeTokens (label : String) : String :=
  (joinUnderscore ((splitTokens label.toList).take 3)).asString

/-- Line 81: `exp_data['parameter'].str.extract(r'^(\d+)')` — the leading
run of decimal digits of the parameter field, parsed as a number; null
when the parameter does not start with a digit. -/
def extractRegion (parameter : String) : Option Nat :=
  match parameter.toList.takeWhile Char.isDigit with
  | [] => none
  | ds => some (ds.foldl (fun n c => 10 * n + (c.toNat - '0'.toNat)) 0)

/-! ## Join and experimental filter (lines 72 and 77) -/

/-- A row of the merged table: the event together with the stimulus row it
matched, or `none` when the left join found no match. -/
abbrev MergedRow := RtEvent × Option Stimulus

/-- Line 72: `rt_data.merge(stimuli, on='item_id', how='left')` — each
event row is paired with every stimulus row whose `item_id` equals the
event's extracted identifier, in stimulus-table order; an event with no
match is kept once with null stimulus fields. -/
def mergeRows (events : List RtEvent) (stimuli : List Stimulus) :
    List MergedRow :=
  events.flatMap fun e =>
    match stimuli.filter (fun s => extractItemId e.label = some s.item_id) with
    | [] => [(e, none)]
    | ms => ms.map fun s => (e, some s)

/-- Line 77: `merged_data[merged_data['type'] == 'exp']` — keep only rows
whose joined `type` field equals `"exp"` (a null `type`, as on unmatched
rows, fails the comparison). -/
def expData (events : List RtEvent) (stimuli : List Stimulus) :
    List MergedRow :=
  (mergeRows events stimuli).filter fun p =>
    match p.2 with
    | some s => s.type == some "exp"
    | none => false

/-! ## Reading-time reconstruction (lines 81, 85, 86) -/

/-- The region column computed on the experimental table (line 81). -/
def regionOf (r : MergedRow) : Option Nat :=
  extractRegion r.1.parameter

/-- The grouping key of lines 85-86: `(participant, item_order)`. -/
def groupKey (r : MergedRow) : String × Int :=
  (r.1.participant, r.1.item_order)

/-- Region as a sort component: pandas places NaN last, so a present
region `n` becomes `(0, n)` and a missing one `(1, 0)`, compared
lexicographically. -/
def regionRank (r : MergedRow) : Lex (Nat × Nat) :=
  toLex (match regionOf r with
         | some n => (0, n)
         | none => (1, 0))

/-- The full sort key of line 85: `['participant', 'item_order', 'region']`,
compared lexicographically with missing regions last. -/
def sortKey (r : MergedRow) : Lex (String × Lex (Int × Lex (Nat × Nat))) :=
  toLex (r.1.participant, toLex (r.1.item_order, regionRank r))

/-- The sort order used by `sort_values` on line 85. -/
def rowLe (a b : MergedRow) : Prop :=
  sortKey a ≤ sortKey b

instance : DecidableRel rowLe := fun a b =>
  inferInstanceAs (Decidable (sortKey a ≤ sortKey b))

instance : IsTotal MergedRow rowLe := ⟨fun a b => le_total (sortKey a) (sortKey b)⟩

instance : IsTrans MergedRow rowLe := ⟨fun _ _ _ hab hbc => le_trans hab hbc⟩

/-- Line 85: `exp_data.sort_values(['participant', 'item_order', 'region'])`. -/
def sortRows (l : List MergedRow) : List MergedRow :=
  List.insertionSort rowLe l

/-- A row of the experimental table after line 86: the merged row together
with its (possibly null) reading time. -/
abbrev RtRow := MergedRow × Option Int

/-- Lookup of the last seen event time for a group key. -/
def lookupTime (k : String × Int) : List ((String × Int) × Int) → Option Int
  | [] => none
  | (k', t) :: rest => if k = k' then some t else lookupTime k rest

/-- Line 86: `groupby(['participant', 'item_order'])['event_time'].diff()`,
carried out over the frame in its current order — each row's reading time
is its event time minus the event time of the previous row of the same
group in frame order, null when there is no such row.  The state maps each
group key to the last event time seen for it. -/
def addRtAux (last : List ((String × Int) × Int)) :
    List MergedRow → List RtRow
  | [] => []
  | r :: rest =>
    (r, (lookupTime (groupKey r) last).map fun t => r.1.event_time - t) ::
      addRtAux ((groupKey r, r.1.event_time) :: last) rest

/-- The experimental table with its `rt` column: sort (line 85), then
group-wise difference (line 86). -/
def withRt (l : List MergedRow) : List RtRow :=
  addRtAux [] (sortRows l)

/-! ## Quality filter (lines 90-95) -/

/-- The row predicate of lines 90-95: `rt` non-null, `rt >= 100`,
`rt <= 5000`, and `region == critical region` — where the pandas `==`
against a null region or null critical region is false. -/
def passesQuality (p : RtRow) : Bool :=
  (match p.2 with
   | some v => (100 ≤ v) && (v ≤ 5000)
   | none => false)
  &&
  (match regionOf p.1, p.1.2 with
   | some r, some s =>
     match s.critical_region with
     | some c => r == c
     | none => false
   | _, _ => false)

/-- Lines 90-95: `exp_data_clean`, the rows of the table that pass the
quality predicate, in order, unchanged. -/
def cleanFilter (l : List RtRow) : List RtRow :=
  l.filter passesQuality

/-- The whole reconstruction-plus-filter pipeline on a joined table. -/
def cleanOut (l : List MergedRow) : List RtRow :=
  cleanFilter (withRt l)

/-! ## Statistics stage (lines 128-173) -/

/-- The joined `Exaggeration` value of a clean row. -/
def exagOf (p : RtRow) : Option Int :=
  p.1.2.bind fun s => s.Exaggeration

/-- The joined `format` value of a clean row. -/
def formatOf (p : RtRow) : Option String :=
  p.1.2.bind fun s => s.format

/-- Line 128: the reading times of the `Exaggeration == 0` rows (a pandas
`==` against a null value is false). -/
def literalRts (t : List RtRow) : List (Option Int) :=
  (t.filter fun p => exagOf p == some 0).map fun p => p.2

/-- Line 129: the reading times of the `Exaggeration == 1` rows. -/
def sarcasticRts (t : List RtRow) : List (Option Int) :=
  (t.filter fun p => exagOf p == some 1).map fun p => p.2

/-- Line 136: `stats.ttest_ind(sarcastic_rt, literal_rt)` — performed
unconditionally; no guard precedes it.  The comparison is recorded as the
pair of samples handed to the t-test. -/
def overallComparison (t : List RtRow) :
    Option (List (Option Int) × List (Option Int)) :=
  some (sarcasticRts t, literalRts t)

/-- Lines 149-151: the two per-format samples. -/
def formatLiteralRts (t : List RtRow) (fmt : String) : List (Option Int) :=
  literalRts (t.filter fun p => formatOf p == some fmt)

/-- Lines 149-151, `Exaggeration == 1` side. -/
def formatSarcasticRts (t : List RtRow) (fmt : String) : List (Option Int) :=
  sarcasticRts (t.filter fun p => formatOf p == some fmt)

/-- Lines 153-155: the per-format comparison, run only under the guard
`len(lit) > 0 and len(sar) > 0`. -/
def formatComparison (t : List RtRow) (fmt : String) :
    Option (List (Option Int) × List (Option Int)) :=
  if 0 < (formatLiteralRts t fmt).length ∧ 0 < (formatSarcasticRts t fmt).length
  then some (formatSarcasticRts t fmt, formatLiteralRts t fmt)
  else none

/-- Line 148: the format levels the per-format loop visits. -/
def formatLevels : List String := ["direct", "indirect"]

/-! ## Cohen's d (lines 142-143, 155) -/

/-- Mean of a list of reals, as pandas `.mean()` computes it. -/
noncomputable def listMean (l : List ℝ) : ℝ :=
  l.sum / l.length

/-- Sample variance with denominator `n - 1`, as pandas `.std()` (default
`ddof=1`) squares to. -/
noncomputable def sampleVar (l : List ℝ) : ℝ :=
  ((l.map fun x => (x - listMean l) ^ 2).sum) / (l.length - 1)

/-- Sample standard deviation, pandas `.std()`. -/
noncomputable def sampleStd (l : List ℝ) : ℝ :=
  Real.sqrt (sampleVar l)

/-- Line 142: `np.sqrt((literal_rt.std()**2 + sarcastic_rt.std()**2) / 2)`. -/
noncomputable def pooledStd (lit sar : List ℝ) : ℝ :=
  Real.sqrt ((sampleStd lit ^ 2 + sampleStd sar ^ 2) / 2)

/-- Line 143: `(sarcastic_rt.mean() - literal_rt.mean()) / pooled_std`. -/
noncomputable def cohensD (lit sar : List ℝ) : ℝ :=
  (listMean sar - listMean lit) / pooledStd lit sar

/-! ## ANOVA guard (lines 167-170) -/

/-- Line 167: the combined condition label
`Exaggeration.astype(str) + '_' + format`; null (and hence dropped by the
later `groupby`) when `format` is null, the string `"nan"` standing in for
a null `Exaggeration`. -/
def condLabel (p : RtRow) : Option String :=
  (formatOf p).map fun f =>
    (match exagOf p with
     | some n => toString n
     | none => "nan") ++ "_" ++ f

/-- Line 168: the distinct condition labels present in the table — one
`groupby('condition')` group per distinct non-null label. -/
def conditionGroups (t : List RtRow) : List String :=
  (t.filterMap condLabel).dedup

/-- Line 170: the ANOVA runs exactly under the guard `len(groups) == 4`. -/
def anovaRun (t : List RtRow) : Bool :=
  (conditionGroups t).length == 4

/-! ## Effect-size tiers (lines 203-210) -/

/-- Lines 203-210: classification of the overall Cohen's d into the four
tiers printed by the report, by the signed value. -/
def effectSizeInterpretation (d : ℚ) : String :=
  if d < 1/5 then "极小"
  else if d < 1/2 then "小"
  else if d < 4/5 then "中等"
  else "大"

/-! ## Derived notions used in the statements -/

/-- The rows of one `(participant, item_order)` group of the table produced
by lines 85-86, in frame order. -/
def groupRows (l : List MergedRow) (k : String × Int) : List RtRow :=
  (withRt l).filter fun p => groupKey p.1 = k

/-- Reference form of the group-wise difference: pair each row of a group
with its reading time, the first row getting null and every later row the
difference from its predecessor. -/
def attachD (prev : Option Int) : List MergedRow → List RtRow
  | [] => []
  | r :: rest =>
    (r, prev.map fun t => r.1.event_time - t) ::
      attachD (some r.1.event_time) rest

/-- Whether the row's parameter yielded a region. -/
def hasRegion (r : MergedRow) : Bool :=
  (regionOf r).isSome

/-- Ascending order on possibly-missing region numbers, missing ones last,
as `sort_values` orders the region column. -/
def regionLe : Option Nat → Option Nat → Prop
  | some a, some b => a ≤ b
  | some _, none => True
  | none, some _ => False
  | none, none => True

/-! ## Helper lemmas -/

theorem takeWhile_append_sep (t r : List Char) (h : '_' ∉ t) :
    (t ++ '_' :: r).takeWhile (fun c => c ≠ '_') = t := by
  induction t with
  | nil => simp [List.takeWhile_cons]
  | cons c t ih =>
    have hc : c ≠ '_' := fun hc => h (hc ▸ List.mem_cons_self c t)
    have ht : '_' ∉ t := fun hm => h (List.mem_cons_of_mem c hm)
    rw [List.cons_append, List.takeWhile_cons, if_pos (by simpa using hc)]
    exact congrArg (c :: ·) (ih ht)

theorem dropWhile_append_sep (t r : List Char) (h : '_' ∉ t) :
    (t ++ '_' :: r).dropWhile (fun c => c ≠ '_') = '_' :: r := by
  induction t with
  | nil => simp [List.dropWhile_cons]
  | cons c t ih =>
    have hc : c ≠ '_' := fun hc => h (hc ▸ List.mem_cons_self c t)
    have ht : '_' ∉ t := fun hm => h (List.mem_cons_of_mem c hm)
    rw [List.cons_append, List.dropWhile_cons, if_pos (by simpa using hc)]
    exact ih ht

theorem takeWhile_no_sep (t : List Char) (h : '_' ∉ t) :
    t.takeWhile (fun c => c ≠ '_') = t := by
  induction t with
  | nil => rfl
  | cons c t ih =>
    have hc : c ≠ '_' := fun hc => h (hc ▸ List.mem_cons_self c t)
    have ht : '_' ∉ t := fun hm => h (List.mem_cons_of_mem c hm)
    rw [List.takeWhile_cons, if_pos (by simpa using hc)]
    exact congrArg (c :: ·) (ih ht)

theorem dropWhile_no_sep (t : List Char) (h : '_' ∉ t) :
    t.dropWhile (fun c => c ≠ '_') = [] := by
  induction t with
  | nil => rfl
  | cons c t ih =>
    have hc : c ≠ '_' := fun hc => h (hc ▸ List.mem_cons_self c t)
    have ht : '_' ∉ t := fun hm => h (List.mem_cons_of_mem c hm)
    rw [List.dropWhile_cons, if_pos (by simpa using hc)]
    exact ih ht

/-- On a list made of three nonempty underscore-free tokens separated by
single underscores (followed by nothing or an underscore and arbitrary
text), the anchored pattern match returns exactly the three tokens. -/
theorem matchPat_tokens (t0 t1 t2 rest : List Char)
    (h0 : t0 ≠ [] ∧ '_' ∉ t0) (h1 : t1 ≠ [] ∧ '_' ∉ t1)
    (h2 : t2 ≠ [] ∧ '_' ∉ t2)
    (hrest : rest = [] ∨ ∃ r, rest = '_' :: r) :
    matchPat (t0 ++ '_' :: (t1 ++ '_' :: (t2 ++ rest))) =
      some (t0 ++ '_' :: (t1 ++ '_' :: t2)) := by
  have htk2 : (t2 ++ rest).takeWhile (fun c => c ≠ '_') = t2 := by
    rcases hrest with hr | ⟨r, hr⟩
    · subst hr; simpa using takeWhile_no_sep t2 h2.2
    · subst hr; exact takeWhile_append_sep t2 r h2.2
  unfold matchPat
  rw [takeWhile_append_sep _ _ h0.2, dropWhile_append_sep _ _ h0.2]
  simp only [List.drop_succ_cons, List.drop_zero]
  rw [takeWhile_append_sep _ _ h1.2, dropWhile_append_sep _ _ h1.2]
  simp only [List.drop_succ_cons, List.drop_zero]
  rw [htk2]
  rw [if_neg (by simp [h0.1, h1.1, h2.1])]
  simp

/-! ## C6 -/

/-- C6, counterexample: the claim "for every event label, the extracted
stimulus identifier is the first three underscore-delimited tokens of the
label joined by underscores" fails at the label `"A__B_C"`: its first
three underscore-delimited tokens join to `"A__B"`, while the code's
regular-expression extraction finds no match at all and yields null. -/
theorem c6_counterexample :
    specFirstThreeTokens "A__B_C" = "A__B" ∧
    extractItemId "A__B_C" = none ∧
    extractItemId "A__B_C" ≠ some (specFirstThreeTokens "A__B_C") := by
  refine ⟨by decide, by decide, by decide⟩

/-- C6 (amended): for every event label whose first three
underscore-delimited tokens exist and are nonempty — that is, every label
of the form `t0_t1_t2` or `t0_t1_t2_⋯` with `t0`, `t1`, `t2` nonempty and
underscore-free — the extracted stimulus identifier is exactly the first
three tokens joined by underscores; in particular the label `"A_B_C_D_E"`
yields exactly `"A_B_C"`. -/
theorem c6_extract_first_three_tokens
    (label : String) (t0 t1 t2 rest : List Char)
    (h0 : t0 ≠ [] ∧ '_' ∉ t0) (h1 : t1 ≠ [] ∧ '_' ∉ t1)
    (h2 : t2 ≠ [] ∧ '_' ∉ t2)
    (hrest : rest = [] ∨ ∃ r, rest = '_' :: r)
    (hl : label.toList = t0 ++ '_' :: (t1 ++ '_' :: (t2 ++ rest))) :
    extractItemId label = some (t0 ++ '_' :: (t1 ++ '_' :: t2)).asString := by
  have hm := matchPat_tokens t0 t1 t2 rest h0 h1 h2 hrest
  obtain ⟨c0, t0', rfl⟩ := List.exists_cons_of_ne_nil h0.1
  rw [extractItemId, hl]
  simp only [List.cons_append] at hm ⊢
  rw [searchPat, hm]
  rfl

/-- C6, witness: the amended theorem applied to the label `"A_B_C_D_E"`. -/
theorem c6_witness : extractItemId "A_B_C_D_E" = some "A_B_C" :=
  (c6_extract_first_three_tokens "A_B_C_D_E" ['A'] ['B'] ['C']
    ['_', 'D', '_', 'E']
    ⟨by decide, by decide⟩ ⟨by decide, by decide⟩ ⟨by decide, by decide⟩
    (Or.inr ⟨['D', '_', 'E'], rfl⟩) (by decide)).trans (by decide)

/-! ## C8 -/

/-- C8: the quality filter is idempotent — applying lines 90-95 to their
own output returns that output unchanged. -/
theorem c8_quality_filter_idempotent (t : List RtRow) :
    cleanFilter (cleanFilter t) = cleanFilter t := by
  simp [cleanFilter, List.filter_filter]

/-! ## C10 -/

/-- C10: the effect-size tier classification of lines 203-210 is applied
to the signed overall Cohen's d: every negative d, whatever its magnitude,
falls into the lowest tier ("极小", negligible). -/
theorem c10_negative_d_lowest_tier (d : ℚ) (hd : d < 0) :
    effectSizeInterpretation d = "极小" := by
  rw [effectSizeInterpretation, if_pos (lt_trans hd (by norm_num))]

/-- C10, witness: d = -1.5 is classified into the lowest tier. -/
theorem c10_witness :
    effectSizeInterpretation (-(3/2) : ℚ) = "极小" :=
  c10_negative_d_lowest_tier _ (by norm_num)

/-! ## C9 -/

/-- C9: the one-way ANOVA of lines 167-173 runs exactly when the number of
distinct combined condition labels present in the quality-filtered data is
four — it is skipped both when fewer and when more than four distinct
labels are present. -/
theorem c9_anova_exactly_four_groups (t : List RtRow) :
    anovaRun t = true ↔ (t.filterMap condLabel).toFinset.card = 4 := by
  rw [List.card_toFinset]
  simp [anovaRun, conditionGroups]

/-! ## C3 -/

/-- C3, counterexample: with an empty quality-filtered table both the
Exaggeration=1 and the Exaggeration=0 group have zero observations, yet
the overall comparison of line 136 is still performed — it is not
skipped, contradicting the claim that any of the comparisons is skipped
whenever either of its two groups is empty. -/
theorem c3_counterexample :
    literalRts ([] : List RtRow) = [] ∧
    sarcasticRts ([] : List RtRow) = [] ∧
    (overallComparison ([] : List RtRow)).isSome = true :=
  ⟨rfl, rfl, rfl⟩

/-- C3 (amended): the Exaggeration=1 vs Exaggeration=0 comparison is
performed once overall and once for each format level (direct, indirect);
each per-format comparison is skipped exactly when either of its two
groups has zero observations, while the overall comparison is always
performed, even when one (or both) of its groups is empty. -/
theorem c3_comparison_guards (t : List RtRow) (fmt : String) :
    (overallComparison t).isSome = true ∧
    (formatComparison t fmt).isSome =
      (!(formatLiteralRts t fmt).isEmpty && !(formatSarcasticRts t fmt).isEmpty) ∧
    formatLevels = ["direct", "indirect"] := by
  refine ⟨rfl, ?_, rfl⟩
  rw [formatComparison]
  by_cases h : 0 < (formatLiteralRts t fmt).length ∧
      0 < (formatSarcasticRts t fmt).length
  · rw [if_pos h]
    obtain ⟨hl, hs⟩ := h
    rw [List.length_pos] at hl hs
    simp [List.isEmpty_iff, hl, hs]
  · rw [if_neg h]
    rw [Decidable.not_and_iff_or_not, Nat.not_lt, Nat.not_lt,
      Nat.le_zero, Nat.le_zero, List.length_eq_zero, List.length_eq_zero] at h
    rcases h with h | h <;> simp [h]

/-! ## C7 -/

/-- C7: under the precondition that every stimulus row of type `"exp"`
carries non-null `Exaggeration` and `format` fields, every row of the
left-joined table that survives the `type == "exp"` filter is joined to
such a stimulus row, hence has non-null `Exaggeration` and `format`. -/
theorem c7_join_completeness (events : List RtEvent) (stimuli : List Stimulus)
    (hstim : ∀ s ∈ stimuli, s.type = some "exp" →
      s.Exaggeration.isSome ∧ s.format.isSome) :
    ∀ p ∈ expData events stimuli,
      ∃ s, p.2 = some s ∧ s.Exaggeration.isSome ∧ s.format.isSome := by
  intro p hp
  rw [expData, List.mem_filter] at hp
  obtain ⟨hmem, htype⟩ := hp
  rcases hp2 : p.2 with _ | s
  · rw [hp2] at htype
    exact absurd htype (by simp)
  · refine ⟨s, rfl, ?_⟩
    rw [hp2] at htype
    have hty : s.type = some "exp" := by simpa using htype
    rw [mergeRows, List.mem_flatMap] at hmem
    obtain ⟨e, _, hpe⟩ := hmem
    rcases hms : stimuli.filter
        (fun s' => extractItemId e.label = some s'.item_id) with _ | ⟨m, ms⟩
    · rw [hms] at hpe
      simp only [List.mem_singleton] at hpe
      rw [hpe] at hp2
      cases hp2
    · rw [hms] at hpe
      rw [List.mem_map] at hpe
      obtain ⟨s', hs', hps⟩ := hpe
      have hs'mem : s' ∈ stimuli :=
        List.mem_of_mem_filter (hms ▸ hs')
      rw [← hps] at hp2
      have hss : s' = s := by simpa using hp2
      exact hstim s (hss ▸ hs'mem) hty

/-- C7, witness: the theorem applied to a one-event, one-stimulus table
whose stimulus row is of type `"exp"` with both condition fields present. -/
theorem c7_witness :
    ∃ s, ((((⟨"p1", 1, "item_1_a_x", "3_w", 100⟩ : RtEvent),
        some (⟨"item_1_a", some 1, some "direct", some "exp", some 3⟩ :
          Stimulus)) : MergedRow)).2 = some s ∧
      s.Exaggeration.isSome ∧ s.format.isSome :=
  c7_join_completeness
    [⟨"p1", 1, "item_1_a_x", "3_w", 100⟩]
    [⟨"item_1_a", some 1, some "direct", some "exp", some 3⟩]
    (by decide) _ (by decide)

/-! ## C2 -/

/-- The quality predicate of lines 90-95 spelled out: a non-null reading
time within the inclusive bounds, and a present region number equal to the
present critical region of the joined stimulus row. -/
theorem passesQuality_iff (p : RtRow) :
    passesQuality p = true ↔
      ((∃ v, p.2 = some v ∧ 100 ≤ v ∧ v ≤ 5000) ∧
       ∃ s r, p.1.2 = some s ∧ regionOf p.1 = some r ∧
         s.critical_region = some r) := by
  obtain ⟨⟨e, os⟩, ort⟩ := p
  rcases ort with _ | v
  · simp [passesQuality]
  · rcases hre : extractRegion e.parameter with _ | r
    · simp [passesQuality, regionOf, hre]
    · rcases os with _ | s
      · simp [passesQuality, regionOf, hre]
      · rcases hcr : s.critical_region with _ | c
        · simp [passesQuality, regionOf, hre, hcr]
        · simp only [passesQuality, regionOf, hre, hcr]
          constructor
          · intro h
            obtain ⟨hv, hrc⟩ := Bool.and_eq_true _ _ |>.mp h
            obtain ⟨h1, h2⟩ := Bool.and_eq_true _ _ |>.mp hv
            have hrc' : r = c := by simpa using hrc
            exact ⟨⟨v, rfl, by simpa using h1, by simpa using h2⟩,
              s, r, rfl, rfl, by rw [hcr, hrc']⟩
          · rintro ⟨⟨v', hv', h1, h2⟩, s', r', hs', hr', hc'⟩
            have hvv : v = v' := by simpa using hv'
            have hss : s = s' := by simpa using hs'
            have hrr : r = r' := by simpa using hr'
            subst hvv hss hrr
            rw [hcr] at hc'
            have hcr2 : c = r := Option.some.inj hc'
            subst hcr2
            simp [h1, h2]

/-- C2: a reading-time row survives the quality filter of lines 90-95 if
and only if its reading time is non-null, at least 100 and at most 5000
(both inclusive), and its region number equals the joined stimulus item's
critical region; the output is a sublist of the input — the surviving rows
themselves, unchanged, with no imputation. -/
theorem c2_quality_filter (t : List RtRow) :
    (cleanFilter t).Sublist t ∧
    ∀ p : RtRow, p ∈ cleanFilter t ↔
      p ∈ t ∧
      (∃ v, p.2 = some v ∧ 100 ≤ v ∧ v ≤ 5000) ∧
      (∃ s r, p.1.2 = some s ∧ regionOf p.1 = some r ∧
        s.critical_region = some r) := by
  refine ⟨List.filter_sublist t, fun p => ?_⟩
  rw [cleanFilter, List.mem_filter, passesQuality_iff]

/-! ## C1 -/

theorem lookupTime_cons (k k' : String × Int) (t : Int)
    (m : List ((String × Int) × Int)) :
    lookupTime k ((k', t) :: m) = if k = k' then some t else lookupTime k m :=
  rfl

/-- Restricting the group-wise difference of line 86 to one group key
gives exactly the reference difference of that group's rows. -/
theorem filter_addRtAux (k : String × Int) :
    ∀ (S : List MergedRow) (m : List ((String × Int) × Int)),
      (addRtAux m S).filter (fun p => groupKey p.1 = k) =
        attachD (lookupTime k m) (S.filter fun r => groupKey r = k) := by
  intro S
  induction S with
  | nil => intro m; rfl
  | cons r T ih =>
    intro m
    by_cases hk : groupKey r = k
    · rw [addRtAux, List.filter_cons, List.filter_cons,
        if_pos (by simpa using hk), if_pos (by simpa using hk),
        attachD, ih, lookupTime_cons, if_pos hk.symm, hk]
    · rw [addRtAux, List.filter_cons, List.filter_cons,
        if_neg (by simpa using hk), if_neg (by simpa using hk),
        ih, lookupTime_cons, if_neg (fun h => hk h.symm)]

theorem attachD_map_fst (l : List MergedRow) :
    ∀ prev, (attachD prev l).map Prod.fst = l := by
  induction l with
  | nil => intro prev; rfl
  | cons r t ih => intro prev; simp [attachD, ih]

theorem attachD_mem_fst (l : List MergedRow) (prev : Option Int) (q : RtRow)
    (hq : q ∈ attachD prev l) : q.1 ∈ l := by
  have hm := List.mem_map_of_mem Prod.fst hq
  rwa [attachD_map_fst] at hm

theorem attachD_pairwise (P : MergedRow → MergedRow → Prop) :
    ∀ (l : List MergedRow) (prev : Option Int), List.Pairwise P l →
      List.Pairwise (fun p q : RtRow => P p.1 q.1) (attachD prev l) := by
  intro l
  induction l with
  | nil => intro prev _; exact List.Pairwise.nil
  | cons r t ih =>
    intro prev h
    obtain ⟨hr, ht⟩ := List.pairwise_cons.mp h
    rw [attachD, List.pairwise_cons]
    exact ⟨fun q hq => hr q.1 (attachD_mem_fst t _ q hq), ih _ ht⟩

theorem attachD_head (prev : Option Int) (l : List MergedRow) :
    (attachD prev l).head? =
      l.head?.map fun r => (r, prev.map fun t => r.1.event_time - t) := by
  cases l <;> rfl

/-- In the reference difference, every row after the first carries exactly
its event time minus its predecessor's event time. -/
theorem attachD_chain (l : List MergedRow) :
    ∀ prev, List.Chain'
      (fun a b : RtRow => b.2 = some (b.1.1.event_time - a.1.1.event_time))
      (attachD prev l) := by
  induction l with
  | nil => intro prev; exact List.chain'_nil
  | cons r t ih =>
    intro prev
    rw [attachD, List.chain'_cons']
    refine ⟨?_, ih (some r.1.event_time)⟩
    intro b hb
    rw [attachD_head] at hb
    cases t with
    | nil => simp at hb
    | cons r2 t2 =>
      simp only [List.head?_cons, Option.map_some', Option.mem_def,
        Option.some.injEq] at hb
      rw [← hb]

/-- The sort key respects the region order within a group: two rows of the
same `(participant, item_order)` key related by the sort order have
ascending (missing-last) regions. -/
theorem rowLe_region (a b : MergedRow) (hab : rowLe a b)
    (hk : groupKey a = groupKey b) : regionLe (regionOf a) (regionOf b) := by
  have hp : a.1.participant = b.1.participant := congrArg Prod.fst hk
  have ho : a.1.item_order = b.1.item_order := congrArg Prod.snd hk
  rw [rowLe, sortKey, sortKey, Prod.Lex.le_iff] at hab
  rcases hab with h | ⟨_, h⟩
  · rw [hp] at h; exact absurd h (lt_irrefl _)
  · rw [Prod.Lex.le_iff] at h
    rcases h with h | ⟨_, h⟩
    · rw [ho] at h; exact absurd h (lt_irrefl _)
    · rcases hra : regionOf a with _ | n <;> rcases hrb : regionOf b with _ | m
      · trivial
      · rw [regionRank, regionRank, hra, hrb] at h
        rw [Prod.Lex.le_iff] at h
        simp at h
      · trivial
      · rw [regionRank, regionRank, hra, hrb] at h
        rw [Prod.Lex.le_iff] at h
        simp only [regionLe]
        rcases h with h | ⟨_, h⟩
        · exact absurd h (lt_irrefl _)
        · exact h

/-- C1: for every joined experimental table and every
`(participant, item_order)` key, the rows of that group in the table
produced by lines 85-86 are in ascending region order (missing regions
last), the first row of the group has a null reading time, and every
later row's reading time equals its event timestamp minus the event
timestamp of the immediately preceding row of the same group. -/
theorem c1_reading_time_diff (l : List MergedRow) (k : String × Int) :
    List.Pairwise
      (fun a b : RtRow => regionLe (regionOf a.1) (regionOf b.1))
      (groupRows l k) ∧
    ((groupRows l k).head?.all fun p => p.2.isNone) = true ∧
    List.Chain'
      (fun a b : RtRow => b.2 = some (b.1.1.event_time - a.1.1.event_time))
      (groupRows l k) := by
  have hG : groupRows l k =
      attachD none ((sortRows l).filter fun r => groupKey r = k) := by
    rw [groupRows, withRt, filter_addRtAux k (sortRows l) []]
    rfl
  refine ⟨?_, ?_, ?_⟩
  · have hs : List.Pairwise rowLe (sortRows l) :=
      List.sorted_insertionSort rowLe l
    have hf : List.Pairwise rowLe
        ((sortRows l).filter fun r => groupKey r = k) :=
      List.Pairwise.sublist (List.filter_sublist _) hs
    have hmem : ∀ x ∈ (sortRows l).filter (fun r => groupKey r = k),
        groupKey x = k := fun x hx => by
      simpa using (List.mem_filter.mp hx).2
    have hreg : List.Pairwise
        (fun a b => regionLe (regionOf a) (regionOf b))
        ((sortRows l).filter fun r => groupKey r = k) :=
      List.Pairwise.imp_of_mem
        (fun ha hb hr =>
          rowLe_region _ _ hr ((hmem _ ha).trans (hmem _ hb).symm)) hf
    rw [hG]
    exact attachD_pairwise _ _ none hreg
  · rw [hG]
    rcases (sortRows l).filter (fun r => groupKey r = k) with _ | ⟨r, rest⟩
    · rfl
    · rfl
  · rw [hG]
    exact attachD_chain _ none

/-! ## C4 -/

/-- Filtering commutes with ordered insertion into a sorted list. -/
theorem filter_orderedInsert {α : Type} (r : α → α → Prop) [DecidableRel r]
    [IsTrans α r] (p : α → Bool) (a : α) :
    ∀ s : List α, List.Sorted r s →
      (List.orderedInsert r a s).filter p =
        if p a then List.orderedInsert r a (s.filter p) else s.filter p := by
  intro s
  induction s with
  | nil =>
    intro _
    cases hpa : p a <;> simp [List.orderedInsert, List.filter_cons, hpa]
  | cons b t ih =>
    intro hs
    obtain ⟨hb, ht⟩ := List.sorted_cons.mp hs
    by_cases hab : r a b
    · rw [List.orderedInsert, if_pos hab]
      cases hpa : p a
      · simp [List.filter_cons, hpa]
      · cases hpb : p b
        · have hall : ∀ c ∈ t.filter p, r a c := fun c hc =>
            IsTrans.trans a b c hab (hb c (List.mem_of_mem_filter hc))
          have hins : List.orderedInsert r a (t.filter p) = a :: t.filter p := by
            cases hft : t.filter p with
            | nil => rfl
            | cons c u =>
              rw [List.orderedInsert,
                if_pos (hall c (hft ▸ List.mem_cons_self c u))]
          simp [List.filter_cons, hpa, hpb, hins]
        · simp [List.filter_cons, hpa, hpb, List.orderedInsert, hab]
    · rw [List.orderedInsert, if_neg hab]
      rw [List.filter_cons, List.filter_cons, ih ht]
      cases hpa : p a
      · cases hpb : p b <;> simp [List.filter_cons, hpa, hpb]
      · cases hpb : p b
        · simp [List.filter_cons, hpa, hpb]
        · simp [List.filter_cons, hpa, hpb, List.orderedInsert, hab]

/-- Filtering commutes with the sort: sorting the filtered table equals
filtering the sorted table (insertion sort is stable, so equality holds as
lists, ties included). -/
theorem insertionSort_filter {α : Type} (r : α → α → Prop) [DecidableRel r]
    [IsTotal α r] [IsTrans α r] (p : α → Bool) (l : List α) :
    List.insertionSort r (l.filter p) = (List.insertionSort r l).filter p := by
  induction l with
  | nil => rfl
  | cons a t ih =>
    rw [List.insertionSort,
      filter_orderedInsert r p a _ (List.sorted_insertionSort r t), ← ih,
      List.filter_cons]
    cases hpa : p a <;> simp [List.insertionSort]

/-- A row with no region number never passes the quality filter: the
pandas comparison `region == critical region` is false on a null region. -/
theorem passesQuality_region_none (p : RtRow) (h : regionOf p.1 = none) :
    passesQuality p = false := by
  rw [passesQuality, h]
  cases hv : p.2 <;> cases h2 : p.1.2 <;> simp

/-- In the sorted table, once a group reaches a missing-region row all
later rows of the same group also have missing regions. -/
theorem sorted_noneTail (l : List MergedRow) :
    List.Pairwise
      (fun a b => groupKey a = groupKey b →
        regionOf a = none → regionOf b = none)
      (sortRows l) := by
  refine List.Pairwise.imp ?_ (List.sorted_insertionSort rowLe l)
  intro a b hab hk hra
  have hr := rowLe_region a b hab hk
  rcases hrb : regionOf b with _ | m
  · rfl
  · rw [hra, hrb] at hr
    exact absurd hr (by simp [regionLe])

/-- Dropping the missing-region rows before the group-wise difference does
not change the quality-filtered output, provided missing-region rows only
occur at the tail of their group (as they do after the sort) and the two
runs agree on the last seen time of every key that still has a
present-region row. -/
theorem cleanFilter_addRtAux :
    ∀ (S : List MergedRow) (m1 m2 : List ((String × Int) × Int)),
      List.Pairwise
        (fun a b => groupKey a = groupKey b →
          regionOf a = none → regionOf b = none) S →
      (∀ k, (∃ x ∈ S, groupKey x = k ∧ (regionOf x).isSome) →
          lookupTime k m1 = lookupTime k m2) →
      cleanFilter (addRtAux m1 S) =
        cleanFilter (addRtAux m2 (S.filter hasRegion)) := by
  intro S
  induction S with
  | nil => intro m1 m2 _ _; rfl
  | cons r T ih =>
    intro m1 m2 hpw hm
    obtain ⟨hr, hpwT⟩ := List.pairwise_cons.mp hpw
    rcases hreg : regionOf r with _ | n
    · have hpf : ∀ rt : Option Int, passesQuality (r, rt) = false :=
        fun rt => passesQuality_region_none (r, rt) hreg
      rw [List.filter_cons, if_neg (by simp [hasRegion, hreg])]
      rw [addRtAux, cleanFilter, List.filter_cons, if_neg (by simp [hpf])]
      exact ih ((groupKey r, r.1.event_time) :: m1) m2 hpwT (fun k hk => by
        obtain ⟨x, hx, hkx, hsx⟩ := hk
        have hne : k ≠ groupKey r := by
          intro he
          have hxnone := hr x hx ((hkx.trans he).symm) hreg
          rw [hxnone] at hsx
          exact absurd hsx (by simp)
        rw [lookupTime_cons, if_neg hne]
        exact hm k ⟨x, List.mem_cons_of_mem _ hx, hkx, hsx⟩)
    · rw [List.filter_cons, if_pos (by simp [hasRegion, hreg])]
      rw [addRtAux, addRtAux]
      have hlk : lookupTime (groupKey r) m1 = lookupTime (groupKey r) m2 :=
        hm (groupKey r)
          ⟨r, List.mem_cons_self r T, rfl, by simp [hreg]⟩
      have hrec := ih ((groupKey r, r.1.event_time) :: m1)
        ((groupKey r, r.1.event_time) :: m2) hpwT (fun k hk => by
          by_cases he : k = groupKey r
          · rw [lookupTime_cons, lookupTime_cons, if_pos he, if_pos he]
          · rw [lookupTime_cons, lookupTime_cons, if_neg he, if_neg he]
            obtain ⟨x, hx, hkx, hsx⟩ := hk
            exact hm k ⟨x, List.mem_cons_of_mem _ hx, hkx, hsx⟩)
      rw [cleanFilter, cleanFilter, List.filter_cons, List.filter_cons, hlk]
      rw [cleanFilter, cleanFilter] at hrec
      rw [hrec]

/-- C4: an event whose parameter does not begin with a decimal digit gets
a null region; no row of the quality-filtered output has a null region;
and removing all null-region events from the joined table before the
sort-and-difference step leaves the quality-filtered output unchanged —
null-region events contribute to no surviving reading-time result. -/
theorem c4_null_region_excluded :
    (∀ param : String,
      (param.toList.head?.all fun c => !c.isDigit) = true →
        extractRegion param = none) ∧
    (∀ (l : List MergedRow), ∀ p ∈ cleanOut l, (regionOf p.1).isSome = true) ∧
    (∀ l : List MergedRow, cleanOut l = cleanOut (l.filter hasRegion)) := by
  refine ⟨?_, ?_, ?_⟩
  · intro param hp
    rcases hpl : param.toList with _ | ⟨c, cs⟩
    · rw [extractRegion, hpl]
      rfl
    · rw [hpl] at hp
      simp only [List.head?_cons, Option.all_some, Bool.not_eq_true'] at hp
      rw [extractRegion, hpl, List.takeWhile_cons, if_neg (by simp [hp])]
  · intro l p hp
    rw [cleanOut, cleanFilter, List.mem_filter] at hp
    rcases hreg : regionOf p.1 with _ | n
    · rw [passesQuality_region_none p hreg] at hp
      exact absurd hp.2 (by simp)
    · rfl
  · intro l
    rw [cleanOut, cleanOut, withRt, withRt, sortRows, sortRows,
      insertionSort_filter rowLe hasRegion l]
    exact cleanFilter_addRtAux (List.insertionSort rowLe l) [] []
      (sorted_noneTail l) (fun k _ => rfl)

/-! ## C5 -/

/-- C5: the Cohen's d of lines 142-143 is the mean difference divided by
the unweighted average-of-variances pooled standard deviation
`sqrt((sd0^2 + sd1^2)/2)` computed from sample standard deviations; on
concrete samples with literal mean 500 and sample sd 100 and sarcastic
mean 600 and sample sd 120 it evaluates to within 0.001 of 0.905. -/
theorem c5_cohens_d_unweighted_pooling :
    (∀ lit sar : List ℝ, cohensD lit sar =
      (listMean sar - listMean lit) /
        Real.sqrt ((sampleStd lit ^ 2 + sampleStd sar ^ 2) / 2)) ∧
    listMean [500 - 50 * Real.sqrt 2, 500 + 50 * Real.sqrt 2] = 500 ∧
    sampleStd [500 - 50 * Real.sqrt 2, 500 + 50 * Real.sqrt 2] = 100 ∧
    listMean [600 - 60 * Real.sqrt 2, 600 + 60 * Real.sqrt 2] = 600 ∧
    sampleStd [600 - 60 * Real.sqrt 2, 600 + 60 * Real.sqrt 2] = 120 ∧
    |cohensD [500 - 50 * Real.sqrt 2, 500 + 50 * Real.sqrt 2]
        [600 - 60 * Real.sqrt 2, 600 + 60 * Real.sqrt 2] - 0.905| <
      1 / 1000 := by
  have hs2 : Real.sqrt 2 ^ 2 = 2 := Real.sq_sqrt (by norm_num)
  have h1 : listMean [500 - 50 * Real.sqrt 2, 500 + 50 * Real.sqrt 2] = 500 := by
    simp [listMean]
  have h2 : listMean [600 - 60 * Real.sqrt 2, 600 + 60 * Real.sqrt 2] = 600 := by
    simp [listMean]
  have hv1 : sampleVar [500 - 50 * Real.sqrt 2, 500 + 50 * Real.sqrt 2] =
      10000 := by
    rw [sampleVar, h1]
    simp
    nlinarith [hs2]
  have hv2 : sampleVar [600 - 60 * Real.sqrt 2, 600 + 60 * Real.sqrt 2] =
      14400 := by
    rw [sampleVar, h2]
    simp
    nlinarith [hs2]
  have hstd1 : sampleStd [500 - 50 * Real.sqrt 2, 500 + 50 * Real.sqrt 2] =
      100 := by
    rw [sampleStd, hv1, show (10000:ℝ) = 100 ^ 2 by norm_num]
    exact Real.sqrt_sq (by norm_num)
  have hstd2 : sampleStd [600 - 60 * Real.sqrt 2, 600 + 60 * Real.sqrt 2] =
      120 := by
    rw [sampleStd, hv2, show (14400:ℝ) = 120 ^ 2 by norm_num]
    exact Real.sqrt_sq (by norm_num)
  have hd : cohensD [500 - 50 * Real.sqrt 2, 500 + 50 * Real.sqrt 2]
      [600 - 60 * Real.sqrt 2, 600 + 60 * Real.sqrt 2] =
      100 / Real.sqrt 12200 := by
    rw [cohensD, pooledStd, hstd1, hstd2, h1, h2]
    norm_num
  have hsl : Real.sqrt 12200 < 110.5 := by
    rw [show (110.5:ℝ) = Real.sqrt (110.5 ^ 2) from
      (Real.sqrt_sq (by norm_num)).symm]
    exact Real.sqrt_lt_sqrt (by norm_num) (by norm_num)
  have hsg : (110.4:ℝ) < Real.sqrt 12200 := by
    rw [show (110.4:ℝ) = Real.sqrt (110.4 ^ 2) from
      (Real.sqrt_sq (by norm_num)).symm]
    exact Real.sqrt_lt_sqrt (by norm_num) (by norm_num)
  have hpos : (0:ℝ) < Real.sqrt 12200 := lt_trans (by norm_num) hsg
  have hlow : (100:ℝ) / 110.5 < 100 / Real.sqrt 12200 :=
    div_lt_div_of_pos_left (by norm_num) hpos hsl
  have hhigh : (100:ℝ) / Real.sqrt 12200 < 100 / 110.4 :=
    div_lt_div_of_pos_left (by norm_num) (by norm_num) hsg
  have a1 : (0.904:ℝ) < 100 / 110.5 := by norm_num
  have a2 : (100:ℝ) / 110.4 < 0.906 := by norm_num
  refine ⟨fun lit sar => rfl, h1, hstd1, h2, hstd2, ?_⟩
  rw [hd, abs_lt]
  constructor <;> linarith

end Sarcasm
